import Mathlib

/-!
Shallow embedding of the nezuko orchestrator core, translated from the Rust
sources:

* `src/agents/src/search/semantic.rs` — overlap filter, MMR deduplication,
  cosine similarity.
* `src/agents/src/agent/prompts.rs` — tool schema builder and the
  hypothetical-document (HyDE) fenced-block parser.
* `src/coordinator/src/controller/suggest.rs` — the suggest controller
  state-machine loop.

Modelling conventions:

* Rust `f32` values are modelled as `ℚ` (exact rational arithmetic); the
  `f32::NEG_INFINITY` initial best score is modelled with `Option`, and
  division by zero yields `0` as usual for `ℚ`.
* Rust machine integers (`usize`, `u64` line numbers) are modelled as `ℕ`.
* `Vec::sort_by` is a stable sort by a total preorder; stable sorts are
  extensionally unique, so it is modelled with `List.insertionSort` (which is
  stable and reduces definitionally).
* Fallible operations (`unwrap` on an `Option`) are modelled with `Option`:
  `none` models a panic.
-/

-- Batteries marks the rational operations irreducible, which blocks the
-- evaluation of concrete instances by `decide`; restore the default here.
attribute [local semireducible] Rat.add Rat.mul Rat.inv Rat.sub

namespace Nezuko

/-- The retrieved-chunk payload (`Payload` in `src/agents/src/search/payload.rs`,
as used by `semantic.rs`): path, language, inclusive 1-based line range,
similarity score and optional embedding. -/
structure Payload where
  relative_path : String
  lang : String
  start_line : ℕ
  end_line : ℕ
  score : ℚ
  content : String
  embedding : Option (List ℚ)
deriving DecidableEq, Repr

/-- The comparator of the first sort in `filter_overlapping_snippets`:
`a.relative_path.cmp(&b.relative_path).then(a.start_line.cmp(&b.start_line))`,
read as a non-strict lexicographic order. Rust compares strings by their
UTF-8 bytes, which orders them exactly like the lexicographic order on their
scalar-value (character) sequences, modelled here on `String.data`. -/
def pathStartLe (a b : Payload) : Prop :=
  a.relative_path.data < b.relative_path.data ∨
    (a.relative_path = b.relative_path ∧ a.start_line ≤ b.start_line)

instance : DecidableRel pathStartLe := fun _ _ =>
  inferInstanceAs (Decidable (_ ∨ _))

/-- The comparator of the final sort in `filter_overlapping_snippets`:
`b.score.partial_cmp(&a.score)`, i.e. descending score. -/
def scoreGe (a b : Payload) : Prop := b.score ≤ a.score

instance : DecidableRel scoreGe := fun _ _ =>
  inferInstanceAs (Decidable (_ ≤ _))

instance : IsTotal Payload pathStartLe where
  total a b := by
    unfold pathStartLe
    rcases lt_trichotomy a.relative_path.data b.relative_path.data with h | h | h
    · exact Or.inl (Or.inl h)
    · rcases le_total a.start_line b.start_line with h2 | h2
      · exact Or.inl (Or.inr ⟨String.ext h, h2⟩)
      · exact Or.inr (Or.inr ⟨(String.ext h).symm, h2⟩)
    · exact Or.inr (Or.inl h)

instance : IsTrans Payload pathStartLe where
  trans a b c hab hbc := by
    unfold pathStartLe at *
    rcases hab with h1 | ⟨h1, h1s⟩
    · rcases hbc with h2 | ⟨h2, _⟩
      · exact Or.inl (h1.trans h2)
      · exact Or.inl (h2 ▸ h1)
    · rcases hbc with h2 | ⟨h2, h2s⟩
      · exact Or.inl (h1 ▸ h2)
      · exact Or.inr ⟨h1.trans h2, h1s.trans h2s⟩

instance : IsTotal Payload scoreGe where
  total a b := le_total b.score a.score

instance : IsTrans Payload scoreGe where
  trans _ _ _ hab hbc := le_trans hbc hab

/-- One step of the dedupe fold in `filter_overlapping_snippets`: drop the
snippet when the last kept snippet shares its path and its `end_line` reaches
the snippet's `start_line`, otherwise keep it. -/
def dedupeStep (ds : List Payload) (s : Payload) : List Payload :=
  match ds.getLast? with
  | some prev =>
      if prev.relative_path = s.relative_path ∧ s.start_line ≤ prev.end_line
      then ds
      else ds ++ [s]
  | none => ds ++ [s]

/-- `filter_overlapping_snippets` from `semantic.rs`: sort by `(path,
start_line)`, fold dropping any snippet whose `start_line` lies within the
previously kept snippet's range on the same path, then re-sort by descending
score. -/
def filter_overlapping_snippets (snippets : List Payload) : List Payload :=
  let sorted := List.insertionSort pathStartLe snippets
  let deduped := sorted.foldl dedupeStep []
  List.insertionSort scoreGe deduped

/-- `dot` from `semantic.rs`: `a.iter().zip(b.iter()).map(|(ai, bi)| ai * bi).sum()`. -/
def dot (a b : List ℚ) : ℚ := (List.zipWith (· * ·) a b).sum

/-- `norm` from `semantic.rs`: `dot(a, a)` (the squared Euclidean norm). -/
def norm (a : List ℚ) : ℚ := dot a a

/-- `cosine_similarity` from `semantic.rs`: `dot(a, b) / (norm(a) * norm(b))`.
The denominator is the product of squared norms, exactly as in the source. -/
def cosine_similarity (a b : List ℚ) : ℚ := dot a b / (norm a * norm b)

/-- Update of a count table (`HashMap<_, i32>` in the source):
`*counts.entry(key).or_insert(0) += 1`. -/
def bump (f : String → ℕ) (key : String) : String → ℕ :=
  fun t => if t = key then f key + 1 else f t

/-- The per-candidate score computed in the selection loop of
`deduplicate_with_mmr`:
`lambda * first_part - (1 - lambda) * second_part`
plus `(1/2)^lang_count` plus `(3/4)^path_count`, where `second_part` starts at
`0` and is replaced whenever a selected neighbour's cosine exceeds it. -/
def equationScore (query_embedding : List ℚ) (embeddings : List (List ℚ))
    (languages paths : List String) (lambda : ℚ) (idxs : List ℕ)
    (langCounts pathCounts : String → ℕ) (i : ℕ) : ℚ :=
  let emb := embeddings.getD i []
  let first_part := cosine_similarity query_embedding emb
  let second_part := idxs.foldl
    (fun acc j =>
      let cos_sim := cosine_similarity emb (embeddings.getD j [])
      if cos_sim > acc then cos_sim else acc) 0
  lambda * first_part - (1 - lambda) * second_part
    + (1 / 2 : ℚ) ^ langCounts (languages.getD i "")
    + (3 / 4 : ℚ) ^ pathCounts (paths.getD i "")

/-- The inner candidate scan of `deduplicate_with_mmr`: iterate over the
candidate indices in order, skip the already-selected ones, and keep the
index whose score strictly exceeds the best so far (`best_score` starts at
`f32::NEG_INFINITY`, modelled by the `none` accumulator). -/
def scanBest (score : ℕ → ℚ) (idxs : List ℕ) :
    List ℕ → Option (ℕ × ℚ) → Option (ℕ × ℚ)
  | [], acc => acc
  | i :: rest, acc =>
      if i ∈ idxs then scanBest score idxs rest acc
      else
        match acc with
        | none => scanBest score idxs rest (some (i, score i))
        | some (b, bs) =>
            if bs < score i then scanBest score idxs rest (some (i, score i))
            else scanBest score idxs rest (some (b, bs))

/-- `idx_to_add` after one pass of the candidate scan. -/
def bestCandidate (n : ℕ) (score : ℕ → ℚ) (idxs : List ℕ) : Option ℕ :=
  (scanBest score idxs (List.range n) none).map Prod.fst

/-- The `while idxs.len() < k` selection loop of `deduplicate_with_mmr`,
with the remaining number of rounds as fuel. When no candidate is found the
source loops forever; under the guard `k ≤ embeddings.len()` that case is
unreachable (some index is always unselected). -/
def mmrSelect (query_embedding : List ℚ) (embeddings : List (List ℚ))
    (languages paths : List String) (lambda : ℚ) :
    ℕ → List ℕ → (String → ℕ) → (String → ℕ) → List ℕ
  | 0, idxs, _, _ => idxs
  | fuel + 1, idxs, langCounts, pathCounts =>
      match bestCandidate embeddings.length
          (equationScore query_embedding embeddings languages paths lambda
            idxs langCounts pathCounts) idxs with
      | none => idxs
      | some i =>
          mmrSelect query_embedding embeddings languages paths lambda fuel
            (idxs ++ [i])
            (bump langCounts (languages.getD i ""))
            (bump pathCounts (paths.getD i ""))

/-- `deduplicate_with_mmr` from `semantic.rs`: if there are fewer candidates
than `k`, return every index; otherwise run the greedy MMR selection until
`k` indices are chosen. -/
def deduplicate_with_mmr (query_embedding : List ℚ) (embeddings : List (List ℚ))
    (languages paths : List String) (lambda : ℚ) (k : ℕ) : List ℕ :=
  if embeddings.length < k then List.range embeddings.length
  else
    mmrSelect query_embedding embeddings languages paths lambda k []
      (fun _ => 0) (fun _ => 0)

/-- The embedding-collection pass of `deduplicate_snippets`
(`.map(|s| s.embedding.as_deref().unwrap())`): each `unwrap()` is modelled
with `Option`, `none` modelling the panic. -/
def collectEmbeddings : List Payload → Option (List (List ℚ))
  | [] => some []
  | s :: rest =>
      match s.embedding with
      | none => none
      | some e => (collectEmbeddings rest).map (fun es => e :: es)

/-- `deduplicate_snippets` from `semantic.rs`. The
kept snippets are those whose (post-filter) index the MMR selection
preserved, in list order. -/
def deduplicate_snippets (all_snippets : List Payload)
    (query_embedding : List ℚ) (output_count : ℕ) : Option (List Payload) :=
  let filtered := filter_overlapping_snippets all_snippets
  (collectEmbeddings filtered).map (fun embeddings =>
    let lambda : ℚ := 1 / 2
    let languages := filtered.map (fun s => s.lang)
    let paths := filtered.map (fun s => s.relative_path)
    let idxs := deduplicate_with_mmr query_embedding embeddings languages
      paths lambda output_count
    (filtered.enum.filter (fun p => p.1 ∈ idxs)).map Prod.snd)

/-! ### Prompt library (`src/agents/src/agent/prompts.rs`) -/

/-- A small JSON value model, enough for the tool-schema builder
(`serde_json::Value` restricted to the constructors the schema uses). -/
inductive Json where
  | str : String → Json
  | arr : List Json → Json
  | obj : List (String × Json) → Json

/-- Look up a key in a JSON object. -/
def Json.lookupKey : Json → String → Option Json
  | Json.obj fields, key => (fields.find? (fun f => f.1 == key)).map Prod.snd
  | _, _ => none

/-- The `"name"` fields of the elements of a JSON array, in order. -/
def toolNames : Json → List String
  | Json.arr items =>
      items.filterMap (fun j =>
        match j.lookupKey "name" with
        | some (Json.str s) => some s
        | _ => none)
  | _ => []

/-- The `code` tool description from `functions` in `prompts.rs`. -/
def codeTool : Json := Json.obj
  [ ("name", Json.str "code"),
    ("description", Json.str "Search the contents of files in a codebase semantically. Results will not necessarily match search terms exactly, but should be related."),
    ("parameters", Json.obj
      [ ("type", Json.str "object"),
        ("properties", Json.obj
          [ ("query", Json.obj
              [ ("type", Json.str "string"),
                ("description", Json.str "The query with which to search. This should consist of keywords that might match something in the codebase, e.g. \x27react functional components\x27, \x27contextmanager\x27, \x27bearer token\x27. It should NOT contain redundant words like \x27usage\x27 or \x27example\x27.") ]) ]),
        ("required", Json.arr [Json.str "query"]) ]) ]

/-- The `path` tool description from `functions` in `prompts.rs`. -/
def pathTool : Json := Json.obj
  [ ("name", Json.str "path"),
    ("description", Json.str "Search the pathnames in a codebase. Use when you want to find a specific file or directory. Results may not be exact matches, but will be similar by some edit-distance."),
    ("parameters", Json.obj
      [ ("type", Json.str "object"),
        ("properties", Json.obj
          [ ("query", Json.obj
              [ ("type", Json.str "string"),
                ("description", Json.str "The query with which path to search. This should consist of keywords that might match a path, e.g. \x27server/src\x27.") ]) ]),
        ("required", Json.arr [Json.str "query"]) ]) ]

/-- The `none` tool description from `functions` in `prompts.rs`. -/
def noneTool : Json := Json.obj
  [ ("name", Json.str "none"),
    ("description", Json.str "Call this to answer the user. Call this only when you have enough information to answer the user\x27s query."),
    ("parameters", Json.obj
      [ ("type", Json.str "object"),
        ("properties", Json.obj
          [ ("paths", Json.obj
              [ ("type", Json.str "array"),
                ("items", Json.obj
                  [ ("type", Json.str "integer"),
                    ("description", Json.str "The indices of the paths to answer with respect to. Can be empty if the answer is not related to a specific path.") ]) ]) ]),
        ("required", Json.arr [Json.str "paths"]) ]) ]

/-- The `proc` tool description, conditionally pushed by `functions` in
`prompts.rs`. -/
def procTool : Json := Json.obj
  [ ("name", Json.str "proc"),
    ("description", Json.str "Read one or more files and extract the line ranges that are relevant to the search terms"),
    ("parameters", Json.obj
      [ ("type", Json.str "object"),
        ("properties", Json.obj
          [ ("query", Json.obj
              [ ("type", Json.str "string"),
                ("description", Json.str "The query with which to search the files.") ]),
            ("paths", Json.obj
              [ ("type", Json.str "array"),
                ("items", Json.obj
                  [ ("type", Json.str "integer"),
                    ("description", Json.str "The indices of the paths to search. paths.len() <= 5") ]) ]) ]),
        ("required", Json.arr [Json.str "query", Json.str "paths"]) ]) ]

/-- `functions` from `prompts.rs`: the array of the `code`, `path` and `none`
tool descriptions, with `proc` pushed at the end when `add_proc` holds. -/
def functions (add_proc : Bool) : Json :=
  let funcs := [codeTool, pathTool, noneTool]
  if add_proc then Json.arr (funcs ++ [procTool]) else Json.arr funcs

/-- The backtick character, U+0060. -/
def tick : Char := Char.ofNat 96

/-- Scan for the first triple-backtick fence and drop through it, returning
the text that follows; `none` when no fence occurs. Models the leftmost-match
search of the regex used by `try_parse_hypothetical_documents`. -/
def dropThroughTicks : List Char → Option (List Char)
  | [] => none
  | c :: rest =>
      if c = tick ∧ rest.take 2 = [tick, tick] then some (rest.drop 2)
      else dropThroughTicks rest

/-- After an opening fence: take the (shortest) content up to the next
triple-backtick fence, returning it with the text after the closing fence.
Models the non-greedy `([\s\S]*?)` capture. -/
def takeUntilTicks : List Char → Option (List Char × List Char)
  | [] => none
  | c :: rest =>
      if c = tick ∧ rest.take 2 = [tick, tick] then some ([], rest.drop 2)
      else
        match takeUntilTicks rest with
        | some (content, after) => some (c :: content, after)
        | none => none

/-- Successive non-overlapping fenced-block captures
(`re.captures_iter(document)`), with fuel bounding the number of rounds; each
round consumes at least six characters, so `document.length` rounds always
suffice. -/
def extractBlocks : ℕ → List Char → List (List Char)
  | 0, _ => []
  | fuel + 1, l =>
      match dropThroughTicks l with
      | none => []
      | some afterOpen =>
          match takeUntilTicks afterOpen with
          | none => []
          | some (content, rest) => content :: extractBlocks fuel rest

/-- `str::trim` on the capture: strip leading and trailing whitespace
(modelled with `Char.isWhitespace`, which agrees with Rust on ASCII). -/
def trim (l : List Char) : List Char :=
  ((l.dropWhile Char.isWhitespace).reverse.dropWhile Char.isWhitespace).reverse

/-- `try_parse_hypothetical_documents` from `prompts.rs`: extract every
triple-backtick fenced block of the document, in order, trimmed. -/
def try_parse_hypothetical_documents (document : String) : List String :=
  (extractBlocks document.length document.toList).map
    (fun b => String.mk (trim b))

/-! ### Suggest controller (`src/coordinator/src/controller/suggest.rs`)

The task-graph crate (`coordinator::task_graph`: `TrackProcessV1`, its graph
operations and the stage derivation) is not among the provided sources; those
parts are modelled from the spec and marked as such. The controller loop
itself is translated from `handle_suggest_core`. -/

/-- `ConversationProcessingStage` (spec section 3): the stage derived from
the task graph that drives the suggest controller. -/
inductive ConversationProcessingStage where
  | GraphNotInitialized
  | OnlyRootNodeExists
  | GenerateTasksAndQuestions
  | TasksAndQuestionsGenerated
  | AllQuestionsAnswered
  | QuestionsPartiallyAnswered
  | AwaitingUserInput
  | ProcessingError
  | Done
  | Unknown
deriving DecidableEq, Repr

/-- Modelled from the spec: the task-generation JSON shape
`\x7b ask_user?, tasks? \x7d` with tasks holding subtasks holding questions
(spec section 4.6); the `Subtask` level. -/
structure Subtask where
  subtask : String
  questions : List String
deriving DecidableEq, Repr

/-- Modelled from the spec: a `Task` of the LM-generated task list. -/
structure Task where
  task : String
  subtasks : List Subtask
deriving DecidableEq, Repr

/-- Modelled from the spec: the LM-generated `TaskList`; both fields are
optional. -/
structure TaskList where
  ask_user : Option String
  tasks : Option (List Task)
deriving DecidableEq, Repr

/-- Modelled from the spec: `TaskList::new()` (returned by the `Done` arm)
is the empty task list with neither tasks nor an ask_user message. -/
def TaskList.new : TaskList := ⟨none, none⟩

/-- Modelled from the spec: a chat message of the LM gateway
(`common::llm_gateway::api::Message`, not among the sources): role plus
content. -/
structure Message where
  role : String
  content : String
deriving DecidableEq, Repr

/-- `Message::user` as used by the controller. -/
def Message.user (text : String) : Message := ⟨"user", text⟩

/-- `TaskListResponseWithMessage` (`common::models`, not among the sources):
the parsed task list together with the system/assistant message pair used to
generate it. -/
structure TaskListResponseWithMessage where
  task_list : TaskList
  messages : List Message
deriving DecidableEq, Repr

/-- Modelled from the spec: a code chunk of the code-understanding response
(spec section 6). -/
structure CodeChunk where
  path : String
  snippet : String
  chunk_start_line : ℕ
  chunk_end_line : ℕ
deriving DecidableEq, Repr

/-- Modelled from the spec: the code-understanding service response
(spec section 6). -/
structure CodeUnderstanding where
  answer : String
  code_chunks : List CodeChunk
deriving DecidableEq, Repr

/-- Modelled from the spec: a question node with its graph id
(`task_graph::graph_model::QuestionWithId`, not among the sources). -/
structure QuestionWithId where
  id : ℕ
  text : String
deriving DecidableEq, Repr

/-- Modelled from the spec: an answer bound to its question by id
(`task_graph::graph_model::QuestionWithAnswer`, not among the sources). -/
structure QuestionWithAnswer where
  question_id : ℕ
  question : String
  answer : CodeUnderstanding
deriving DecidableEq, Repr

/-- `ConversationChain` passed to the graph-extension op: the user, system
and assistant messages of one turn. -/
structure ConversationChain where
  user_message : Message
  system_message : Message
  assistant_message : Message
deriving DecidableEq, Repr

/-- Modelled from the spec: one `Conversation` node with its message chain,
the optional `ask_user` carried by the assistant turn, and the attached
task subtree (spec sections 3 and 4.8). -/
structure Turn where
  user_message : Message
  system_message : Message
  assistant_message : Message
  ask_user : Option String
  tasks : Option (List Task)
deriving DecidableEq, Repr

/-- Modelled from the spec: `TrackProcessV1`, the persistable conversation
task graph, flattened to its conversation turns and the recorded answers
(`task_graph::graph_model`, not among the sources). -/
structure TrackProcessV1 where
  repo_name : String
  initialized : Bool
  turns : List Turn
  answers : List QuestionWithAnswer
deriving DecidableEq, Repr

/-- `TrackProcessV1::new(repo_name)`: a fresh tracker with no graph. -/
def TrackProcessV1.new (repo : String) : TrackProcessV1 :=
  ⟨repo, false, [], []⟩

/-- `initialize_graph`: create the root node. -/
def TrackProcessV1.initialize_graph (t : TrackProcessV1) : TrackProcessV1 :=
  { t with initialized := true }

/-- The questions attached under one conversation turn, in subtree order. -/
def questionsOfTurn (turn : Turn) : List String :=
  (turn.tasks.getD []).flatMap (fun task => task.subtasks.flatMap (fun st => st.questions))

/-- Modelled from the spec: every question of the graph with its id
(ids are assigned in graph insertion order). -/
def TrackProcessV1.questionsWithIds (t : TrackProcessV1) : List QuestionWithId :=
  (t.turns.flatMap questionsOfTurn).enum.map (fun p => ⟨p.1, p.2⟩)

/-- The question ids already answered in the graph. -/
def TrackProcessV1.answeredIds (t : TrackProcessV1) : List ℕ :=
  t.answers.map (fun a => a.question_id)

/-- The questions of the most recent conversation turn, with their ids. -/
def TrackProcessV1.lastTurnQuestions (t : TrackProcessV1) : List QuestionWithId :=
  t.questionsWithIds.drop (t.turns.dropLast.flatMap questionsOfTurn).length

/-- Modelled from the spec: `last_processing_stage` derived by inspecting the
most recent conversation (spec section 4.8): no tasks with an ask_user
assistant turn gives `AwaitingUserInput`; no tasks otherwise gives
`GenerateTasksAndQuestions`; tasks with no answers gives
`TasksAndQuestionsGenerated`; some answers missing gives
`QuestionsPartiallyAnswered`; all answered gives `AllQuestionsAnswered`.
The second component is the index of the last conversation node. -/
def TrackProcessV1.last_conversation_processing_stage (t : TrackProcessV1) :
    ConversationProcessingStage × ℕ :=
  if ¬ t.initialized then (.GraphNotInitialized, 0)
  else
    match t.turns.getLast? with
    | none => (.OnlyRootNodeExists, 0)
    | some turn =>
        match turn.tasks with
        | none =>
            if turn.ask_user.isSome then (.AwaitingUserInput, t.turns.length)
            else (.GenerateTasksAndQuestions, t.turns.length)
        | some _ =>
            let qs := t.lastTurnQuestions
            if qs.all (fun q => q.id ∈ t.answeredIds) then
              (.AllQuestionsAnswered, t.turns.length)
            else if qs.any (fun q => q.id ∈ t.answeredIds) then
              (.QuestionsPartiallyAnswered, t.turns.length)
            else (.TasksAndQuestionsGenerated, t.turns.length)

/-- Modelled from the spec: `extend_graph_with_conversation_and_tasklist`
appends a conversation turn carrying the message chain, the `ask_user` of the
assistant turn, and the task subtree of the given task list
(spec sections 4.8 and 4.9). -/
def TrackProcessV1.extend_graph_with_conversation_and_tasklist
    (t : TrackProcessV1) (chain : ConversationChain) (ask_user : Option String)
    (task_list : Option TaskList) : TrackProcessV1 :=
  { t with
    turns := t.turns ++
      [⟨chain.user_message, chain.system_message, chain.assistant_message,
        ask_user, task_list.bind (fun tl => tl.tasks)⟩] }

/-- Modelled from the spec: `extend_graph_with_answers` attaches an `Answer`
node for every successful result, preserving partial success; failed results
attach nothing (spec section 4.8). -/
def TrackProcessV1.extend_graph_with_answers (t : TrackProcessV1)
    (results : List (Except String QuestionWithAnswer)) : TrackProcessV1 :=
  { t with answers := t.answers ++ results.filterMap Except.toOption }

/-- Modelled from the spec: `get_unanswered_questions` returns the questions
of the current conversation that have no answer yet. -/
def TrackProcessV1.get_unanswered_questions (t : TrackProcessV1) :
    List QuestionWithId :=
  t.lastTurnQuestions.filter (fun q => q.id ∉ t.answeredIds)

/-- The `/suggest` request body. -/
structure SuggestRequest where
  id : Option String
  user_query : String
  repo_name : String
deriving DecidableEq, Repr

/-- The value carried by a successful return of `handle_suggest_core`. The
source declares the return type `Result<TaskList>` but its three `Ok`
returns carry values of three different types (the draft does not
type-check): `TaskList::new()` in the `Done` arm, the empty
`suggest_response.tasks` vector (`Vec<Task>`) in the `AwaitingUserInput`
branch, and `task_list` — the unanswered-questions `Vec<QuestionWithId>`
bound at line 156 — in the `TasksAndQuestionsGenerated` arm. The payload is
therefore modelled as a tagged union recording exactly which value each arm
returns. -/
inductive SuggestReturn where
  | taskList (tl : TaskList)
  | tasks (ts : List Task)
  | questions (qs : List QuestionWithId)
deriving DecidableEq, Repr

/-- Outcome of one iteration of the stage loop of `handle_suggest_core`:
continue with a new stage, return a value, or return an error. -/
inductive StepResult where
  | next (state : ConversationProcessingStage) (tracker : TrackProcessV1)
  | ok (value : SuggestReturn) (tracker : TrackProcessV1)
  | fail (msg : String) (tracker : TrackProcessV1)
deriving DecidableEq, Repr

/-- The message of a failed code-understanding result
(`err_result.clone().unwrap_err()`; the `ok` case is unreachable at the call
site because the element was found by `is_err`). -/
def errMsgOf : Except String QuestionWithAnswer → String
  | .error e => e
  | .ok _ => ""

/-- `x.is_err()` as a Bool predicate. -/
def isErrB : Except String QuestionWithAnswer → Bool
  | .error _ => true
  | .ok _ => false

/-- The empty `suggest_response.tasks` vector (`vec![]`) returned when the
stage becomes `AwaitingUserInput`. -/
def emptySuggestTasks : SuggestReturn := .tasks []

/-- One iteration of the `while` stage loop of `handle_suggest_core`,
translated arm by arm from `suggest.rs` lines 84-214. External effects are
oracles: `genTasks` is the result of `generate_tasks_and_questions`, and
`answersFor` the per-question results of `get_codebase_answers_for_questions`
(one result per unanswered question, in question order). -/
def suggestStep (request : SuggestRequest)
    (genTasks : Except String TaskListResponseWithMessage)
    (answersFor : List QuestionWithId → List (Except String QuestionWithAnswer))
    (state : ConversationProcessingStage) (tracker : TrackProcessV1) :
    StepResult :=
  match state with
  | .OnlyRootNodeExists =>
      .fail "Only root node exists, no conversation has happened yet. Invalid state, create new conversation" tracker
  | .GraphNotInitialized =>
      .next .GenerateTasksAndQuestions tracker.initialize_graph
  | .GenerateTasksAndQuestions =>
      match genTasks with
      | .error e => .fail e tracker
      | .ok resp =>
          let generated_questions := resp.task_list
          if generated_questions.ask_user = none ∧ generated_questions.tasks = none then
            .fail "No tasks or either ask_user is generated. The LLM is not supposed to behave this way, test the API response from the code understanding service" tracker
          else
            let chain : ConversationChain :=
              { user_message := Message.user request.user_query,
                system_message := resp.messages.getD 0 ⟨"", ""⟩,
                assistant_message := resp.messages.getD 1 ⟨"", ""⟩ }
            let tracker2 := tracker.extend_graph_with_conversation_and_tasklist
              chain generated_questions.ask_user
              (some ⟨none, generated_questions.tasks⟩)
            let state2 := tracker2.last_conversation_processing_stage.1
            if state2 = .AwaitingUserInput then .ok emptySuggestTasks tracker2
            else .next state2 tracker2
  | .TasksAndQuestionsGenerated =>
      let task_list := tracker.get_unanswered_questions
      let questions_with_answers := answersFor task_list
      let tracker2 := tracker.extend_graph_with_answers questions_with_answers
      match questions_with_answers.find? isErrB with
      | some err_result => .fail (errMsgOf err_result) tracker2
      | none =>
          -- `return Ok(task_list)` at line 183: the value returned is the
          -- `task_list` binding from line 156, i.e. the unanswered-questions
          -- list the arm fanned out over — not the conversation's task
          -- hierarchy
          .ok (.questions task_list) tracker2
  | .AwaitingUserInput =>
      .next .GenerateTasksAndQuestions tracker
  | .Unknown =>
      .fail "Unknown graph state, aborting the conversation." tracker
  | .AllQuestionsAnswered =>
      -- the source only logs here: no state change, no return
      .next .AllQuestionsAnswered tracker
  | .QuestionsPartiallyAnswered =>
      -- the source only logs here: no state change, no return
      .next .QuestionsPartiallyAnswered tracker
  | .ProcessingError =>
      .fail "Error occurred in conversation processing, aborting." tracker
  | .Done => .ok (.taskList TaskList.new) tracker

/-- The `while` loop of `handle_suggest_core`. Its condition
`state != Done || state != ProcessingError` is a tautology, so the loop exits
only through a `return`; `none` models running out of the given number of
iterations without returning (so `∀ fuel, ... = none` models divergence). -/
def suggestLoop (request : SuggestRequest)
    (genTasks : Except String TaskListResponseWithMessage)
    (answersFor : List QuestionWithId → List (Except String QuestionWithAnswer)) :
    ℕ → ConversationProcessingStage → TrackProcessV1 →
    Option (Except String (SuggestReturn × TrackProcessV1))
  | 0, _, _ => none
  | fuel + 1, state, tracker =>
      match suggestStep request genTasks answersFor state tracker with
      | .next state2 tracker2 => suggestLoop request genTasks answersFor fuel state2 tracker2
      | .ok value tracker2 => some (.ok (value, tracker2))
      | .fail e _ => some (.error e)

/-- `handle_suggest_core`: load the tracker by conversation id (or create a
fresh one), derive its processing stage, and run the stage loop.
`loadedTracker` is the oracle for the Redis load. -/
def handle_suggest_core (request : SuggestRequest)
    (loadedTracker : Except String TrackProcessV1)
    (genTasks : Except String TaskListResponseWithMessage)
    (answersFor : List QuestionWithId → List (Except String QuestionWithAnswer))
    (fuel : ℕ) : Option (Except String (SuggestReturn × TrackProcessV1)) :=
  match request.id with
  | some _ =>
      match loadedTracker with
      | .error e => some (.error ("Failed to load the conversation from Redis: " ++ e))
      | .ok tracker =>
          suggestLoop request genTasks answersFor fuel
            tracker.last_conversation_processing_stage.1 tracker
  | none =>
      let tracker := TrackProcessV1.new request.repo_name
      suggestLoop request genTasks answersFor fuel
        tracker.last_conversation_processing_stage.1 tracker

/-! ### Properties of the MMR candidate scan -/

/-- Full characterisation of `scanBest` on a strictly increasing candidate
list: the scan returns the first index attaining the maximal score among the
non-selected candidates (and the accumulator). -/
theorem scanBest_main (score : ℕ → ℚ) (idxs : List ℕ) :
    ∀ (l : List ℕ) (acc : Option (ℕ × ℚ)),
      l.Pairwise (· < ·) →
      (acc = none ∨ ∃ b, acc = some (b, score b) ∧ b ∉ idxs ∧ ∀ x ∈ l, b < x) →
      (scanBest score idxs l acc = none → acc = none ∧ ∀ x ∈ l, x ∈ idxs)
      ∧ (∀ i s, scanBest score idxs l acc = some (i, s) →
          s = score i ∧ i ∉ idxs
          ∧ (acc = some (i, s) ∨ i ∈ l)
          ∧ (∀ x ∈ l, x ∉ idxs → score x ≤ s)
          ∧ (∀ x ∈ l, x ∉ idxs → x < i → score x < s)
          ∧ (∀ b, acc = some (b, score b) → score b ≤ s ∧ (b ≠ i → score b < s))) := by
  intro l
  induction l with
  | nil =>
      intro acc _ hacc
      constructor
      · intro h
        exact ⟨h, by simp⟩
      · intro i s h
        have hacc2 : acc = some (i, s) := h
        rcases hacc with rfl | ⟨b, rfl, hbn, _⟩
        · exact absurd hacc2 (by simp)
        · have hpair := Option.some.inj hacc2
          have hbi : b = i := congrArg Prod.fst hpair
          subst hbi
          have hsb : score b = s := congrArg Prod.snd hpair
          refine ⟨hsb.symm, hbn, Or.inl hacc2, by simp, by simp, ?_⟩
          intro b0 hb0
          have hb0b : b = b0 := congrArg Prod.fst (Option.some.inj hb0)
          subst hb0b
          exact ⟨hsb.le, fun hne => absurd rfl hne⟩
  | cons x rest ih =>
      intro acc hpw hacc
      have hx_rest : ∀ y ∈ rest, x < y := (List.pairwise_cons.1 hpw).1
      have hpw_rest : rest.Pairwise (· < ·) := (List.pairwise_cons.1 hpw).2
      by_cases hxm : x ∈ idxs
      · -- the candidate is already selected: skip it
        have hstep : scanBest score idxs (x :: rest) acc = scanBest score idxs rest acc := by
          simp [scanBest, hxm]
        have hacc2 : acc = none ∨ ∃ b, acc = some (b, score b) ∧ b ∉ idxs ∧ ∀ y ∈ rest, b < y := by
          rcases hacc with h | ⟨b, hb, hbn, hbl⟩
          · exact Or.inl h
          · exact Or.inr ⟨b, hb, hbn, fun y hy => hbl y (List.mem_cons_of_mem _ hy)⟩
        obtain ⟨ihn, ihs⟩ := ih acc hpw_rest hacc2
        constructor
        · intro h
          obtain ⟨h1, h2⟩ := ihn (hstep ▸ h)
          refine ⟨h1, ?_⟩
          intro y hy
          rcases List.mem_cons.1 hy with rfl | hy2
          · exact hxm
          · exact h2 y hy2
        · intro i s h
          obtain ⟨hs, hin, hprov, hweak, hstrict, haccb⟩ := ihs i s (hstep ▸ h)
          refine ⟨hs, hin, ?_, ?_, ?_, haccb⟩
          · rcases hprov with h2 | h2
            · exact Or.inl h2
            · exact Or.inr (List.mem_cons_of_mem _ h2)
          · intro y hy hyn
            rcases List.mem_cons.1 hy with rfl | hy2
            · exact absurd hxm hyn
            · exact hweak y hy2 hyn
          · intro y hy hyn hyi
            rcases List.mem_cons.1 hy with rfl | hy2
            · exact absurd hxm hyn
            · exact hstrict y hy2 hyn hyi
      · -- the candidate is available: it replaces the accumulator when its
        -- score strictly exceeds the best so far
        rcases hacc with rfl | ⟨b, hb, hbn, hbl⟩
        · have hstep : scanBest score idxs (x :: rest) none
              = scanBest score idxs rest (some (x, score x)) := by
            simp [scanBest, hxm]
          have hacc2 : some (x, score x) = none ∨ ∃ b, some (x, score x) = some (b, score b) ∧ b ∉ idxs ∧ ∀ y ∈ rest, b < y :=
            Or.inr ⟨x, rfl, hxm, hx_rest⟩
          obtain ⟨ihn, ihs⟩ := ih (some (x, score x)) hpw_rest hacc2
          constructor
          · intro h
            obtain ⟨h1, _⟩ := ihn (hstep ▸ h)
            exact absurd h1 (by simp)
          · intro i s h
            obtain ⟨hs, hin, hprov, hweak, hstrict, haccb⟩ := ihs i s (hstep ▸ h)
            have hxbound := haccb x rfl
            refine ⟨hs, hin, ?_, ?_, ?_, ?_⟩
            · rcases hprov with h2 | h2
              · have hxi : x = i := congrArg Prod.fst (Option.some.inj h2)
                exact Or.inr (hxi ▸ List.mem_cons_self _ _)
              · exact Or.inr (List.mem_cons_of_mem _ h2)
            · intro y hy hyn
              rcases List.mem_cons.1 hy with rfl | hy2
              · exact hxbound.1
              · exact hweak y hy2 hyn
            · intro y hy hyn hyi
              rcases List.mem_cons.1 hy with rfl | hy2
              · exact hxbound.2 (Nat.ne_of_lt hyi)
              · exact hstrict y hy2 hyn hyi
            · intro b0 hb0
              cases hb0
        · subst hb
          by_cases hlt : score b < score x
          · have hstep : scanBest score idxs (x :: rest) (some (b, score b))
                = scanBest score idxs rest (some (x, score x)) := by
              simp [scanBest, hxm, hlt]
            have hacc2 : some (x, score x) = none ∨ ∃ c, some (x, score x) = some (c, score c) ∧ c ∉ idxs ∧ ∀ y ∈ rest, c < y :=
              Or.inr ⟨x, rfl, hxm, hx_rest⟩
            obtain ⟨ihn, ihs⟩ := ih (some (x, score x)) hpw_rest hacc2
            constructor
            · intro h
              obtain ⟨h1, _⟩ := ihn (hstep ▸ h)
              exact absurd h1 (by simp)
            · intro i s h
              obtain ⟨hs, hin, hprov, hweak, hstrict, haccb⟩ := ihs i s (hstep ▸ h)
              have hxbound := haccb x rfl
              refine ⟨hs, hin, ?_, ?_, ?_, ?_⟩
              · rcases hprov with h2 | h2
                · have hxi : x = i := congrArg Prod.fst (Option.some.inj h2)
                  exact Or.inr (hxi ▸ List.mem_cons_self _ _)
                · exact Or.inr (List.mem_cons_of_mem _ h2)
              · intro y hy hyn
                rcases List.mem_cons.1 hy with rfl | hy2
                · exact hxbound.1
                · exact hweak y hy2 hyn
              · intro y hy hyn hyi
                rcases List.mem_cons.1 hy with rfl | hy2
                · exact hxbound.2 (Nat.ne_of_lt hyi)
                · exact hstrict y hy2 hyn hyi
              · intro b0 hb0
                have hb0b : b0 = b := (congrArg Prod.fst (Option.some.inj hb0)).symm
                subst hb0b
                exact ⟨le_trans (le_of_lt hlt) hxbound.1,
                  fun _ => lt_of_lt_of_le hlt hxbound.1⟩
          · have hstep : scanBest score idxs (x :: rest) (some (b, score b))
                = scanBest score idxs rest (some (b, score b)) := by
              simp [scanBest, hxm, hlt]
            have hacc2 : some (b, score b) = none ∨ ∃ c, some (b, score b) = some (c, score c) ∧ c ∉ idxs ∧ ∀ y ∈ rest, c < y :=
              Or.inr ⟨b, rfl, hbn, fun y hy => hbl y (List.mem_cons_of_mem _ hy)⟩
            obtain ⟨ihn, ihs⟩ := ih (some (b, score b)) hpw_rest hacc2
            have hbx : b < x := hbl x (List.mem_cons_self _ _)
            constructor
            · intro h
              obtain ⟨h1, _⟩ := ihn (hstep ▸ h)
              exact absurd h1 (by simp)
            · intro i s h
              obtain ⟨hs, hin, hprov, hweak, hstrict, haccb⟩ := ihs i s (hstep ▸ h)
              have hbbound := haccb b rfl
              have hxs : score x ≤ score b := not_lt.1 hlt
              refine ⟨hs, hin, ?_, ?_, ?_, ?_⟩
              · rcases hprov with h2 | h2
                · exact Or.inl h2
                · exact Or.inr (List.mem_cons_of_mem _ h2)
              · intro y hy hyn
                rcases List.mem_cons.1 hy with rfl | hy2
                · exact le_trans hxs hbbound.1
                · exact hweak y hy2 hyn
              · intro y hy hyn hyi
                rcases List.mem_cons.1 hy with rfl | hy2
                · -- here y = x and x < i, so i ≠ b (b is below x), and the
                  -- accumulator bound is strict
                  have hbi : b ≠ i := by
                    intro hbi
                    subst hbi
                    exact absurd (lt_trans hbx hyi) (lt_irrefl _)
                  exact lt_of_le_of_lt hxs (hbbound.2 hbi)
                · exact hstrict y hy2 hyn hyi
              · intro b0 hb0
                have hb0b : b0 = b := (congrArg Prod.fst (Option.some.inj hb0)).symm
                subst hb0b
                exact hbbound

/-- When some index below `n` is not yet selected, the candidate scan finds
the first index of maximal score among the non-selected ones. -/
theorem bestCandidate_some (n : ℕ) (score : ℕ → ℚ) (idxs : List ℕ)
    (h : ∃ i, i < n ∧ i ∉ idxs) :
    ∃ i, bestCandidate n score idxs = some i ∧ i < n ∧ i ∉ idxs
      ∧ (∀ j, j < n → j ∉ idxs → score j ≤ score i)
      ∧ (∀ j, j < i → j ∉ idxs → score j < score i) := by
  obtain ⟨w, hwn, hwm⟩ := h
  obtain ⟨hnone, hsome⟩ := scanBest_main score idxs (List.range n) none
    (List.pairwise_lt_range n) (Or.inl rfl)
  match hres : scanBest score idxs (List.range n) none with
  | none =>
      obtain ⟨_, hall⟩ := hnone hres
      exact absurd (hall w (List.mem_range.2 hwn)) hwm
  | some (i, s) =>
      obtain ⟨hs, hin, hprov, hweak, hstrict, _⟩ := hsome i s hres
      subst hs
      refine ⟨i, ?_, ?_, hin, ?_, ?_⟩
      · simp [bestCandidate, hres]
      · rcases hprov with h2 | h2
        · cases h2
        · exact List.mem_range.1 h2
      · intro j hj hjm
        exact hweak j (List.mem_range.2 hj) hjm
      · intro j hj hjm
        have hjn : j < n := by
          rcases hprov with h2 | h2
          · cases h2
          · exact lt_trans hj (List.mem_range.1 h2)
        exact hstrict j (List.mem_range.2 hjn) hjm hj

/-- A duplicate-free list of naturals below `n` that is shorter than `n`
misses some index below `n`. -/
theorem exists_unselected (idxs : List ℕ) (n : ℕ) (hnd : idxs.Nodup)
    (hlen : idxs.length < n) : ∃ i, i < n ∧ i ∉ idxs := by
  by_contra hcon
  push_neg at hcon
  have hsub : Finset.range n ⊆ idxs.toFinset := by
    intro x hx
    exact List.mem_toFinset.2 (hcon x (Finset.mem_range.1 hx))
  have hcard := Finset.card_le_card hsub
  rw [Finset.card_range, List.toFinset_card_of_nodup hnd] at hcard
  omega

/-- Invariant of the MMR selection loop: starting from a duplicate-free
in-range selection whose target size fits within the candidate count, every
round adds exactly one fresh in-range index. -/
theorem mmrSelect_spec (q : List ℚ) (embs : List (List ℚ))
    (langs paths : List String) (lam : ℚ) :
    ∀ (fuel : ℕ) (idxs : List ℕ) (lc pc : String → ℕ),
      idxs.Nodup → (∀ i ∈ idxs, i < embs.length) →
      idxs.length + fuel ≤ embs.length →
      (mmrSelect q embs langs paths lam fuel idxs lc pc).length = idxs.length + fuel
      ∧ (mmrSelect q embs langs paths lam fuel idxs lc pc).Nodup
      ∧ ∀ i ∈ mmrSelect q embs langs paths lam fuel idxs lc pc, i < embs.length := by
  intro fuel
  induction fuel with
  | zero =>
      intro idxs lc pc hnd hrange _
      exact ⟨by simp [mmrSelect], by simpa [mmrSelect] using hnd,
        by simpa [mmrSelect] using hrange⟩
  | succ fuel ih =>
      intro idxs lc pc hnd hrange hlen
      obtain ⟨i, hbc, hi_n, hi_m, _, _⟩ := bestCandidate_some embs.length
        (equationScore q embs langs paths lam idxs lc pc) idxs
        (exists_unselected idxs embs.length hnd (by omega))
      have hstep : mmrSelect q embs langs paths lam (fuel + 1) idxs lc pc
          = mmrSelect q embs langs paths lam fuel (idxs ++ [i])
              (bump lc (langs.getD i "")) (bump pc (paths.getD i "")) := by
        simp [mmrSelect, hbc]
      have hnd2 : (idxs ++ [i]).Nodup := by
        simp [List.nodup_append, hnd, hi_m]
      have hrange2 : ∀ j ∈ idxs ++ [i], j < embs.length := by
        intro j hj
        rcases List.mem_append.1 hj with hj2 | hj2
        · exact hrange j hj2
        · rw [List.mem_singleton.1 hj2]
          exact hi_n
      have hlen2 : (idxs ++ [i]).length + fuel ≤ embs.length := by
        simp only [List.length_append, List.length_singleton]
        omega
      obtain ⟨h1, h2, h3⟩ := ih (idxs ++ [i])
        (bump lc (langs.getD i "")) (bump pc (paths.getD i "")) hnd2 hrange2 hlen2
      refine ⟨?_, hstep ▸ h2, hstep ▸ h3⟩
      rw [hstep, h1]
      simp only [List.length_append, List.length_singleton]
      omega

/-- C3: for every query embedding, candidate lists of common length `n`,
every `lambda` and every `k`, `deduplicate_with_mmr` returns exactly
`min k n` indices, all distinct, all in `[0, n)`. -/
theorem c3_deduplicate_with_mmr_count_distinct_inrange
    (q : List ℚ) (embs : List (List ℚ)) (langs paths : List String)
    (lam : ℚ) (k : ℕ)
    (_hlang : langs.length = embs.length) (_hpath : paths.length = embs.length) :
    (deduplicate_with_mmr q embs langs paths lam k).length = min k embs.length
    ∧ (deduplicate_with_mmr q embs langs paths lam k).Nodup
    ∧ ∀ i ∈ deduplicate_with_mmr q embs langs paths lam k, i < embs.length := by
  unfold deduplicate_with_mmr
  by_cases hk : embs.length < k
  · simp only [hk, if_true]
    exact ⟨by simp [Nat.min_eq_right (le_of_lt hk)], List.nodup_range _,
      fun i hi => List.mem_range.1 hi⟩
  · simp only [hk, if_false]
    obtain ⟨h1, h2, h3⟩ := mmrSelect_spec q embs langs paths lam k []
      (fun _ => 0) (fun _ => 0) List.nodup_nil (by simp)
      (by simp only [List.length_nil, Nat.zero_add]; omega)
    refine ⟨?_, h2, h3⟩
    rw [h1]
    simp only [List.length_nil, Nat.zero_add]
    omega

/-- Witness for C3 at a concrete input: three two-dimensional candidates,
`k = 2`. -/
theorem c3_witness :
    (["rs", "py", "rs"] : List String).length = ([[1, 0], [0, 1], [1, 0]] : List (List ℚ)).length
    ∧ (["a", "b", "c"] : List String).length = ([[1, 0], [0, 1], [1, 0]] : List (List ℚ)).length
    ∧ (deduplicate_with_mmr [1, 0] [[1, 0], [0, 1], [1, 0]] ["rs", "py", "rs"]
        ["a", "b", "c"] (1 / 2) 2).length = min 2 ([[1, 0], [0, 1], [1, 0]] : List (List ℚ)).length
    ∧ (deduplicate_with_mmr [1, 0] [[1, 0], [0, 1], [1, 0]] ["rs", "py", "rs"]
        ["a", "b", "c"] (1 / 2) 2).Nodup
    ∧ ∀ i ∈ deduplicate_with_mmr [1, 0] [[1, 0], [0, 1], [1, 0]] ["rs", "py", "rs"]
        ["a", "b", "c"] (1 / 2) 2, i < ([[1, 0], [0, 1], [1, 0]] : List (List ℚ)).length := by
  have h := c3_deduplicate_with_mmr_count_distinct_inrange [1, 0]
    [[1, 0], [0, 1], [1, 0]] ["rs", "py", "rs"] ["a", "b", "c"] (1 / 2) 2
    (by decide) (by decide)
  exact ⟨by decide, by decide, h.1, h.2.1, h.2.2⟩

/-! ### The MMR score as the spec writes it (claim C5) -/

/-- The maximum of a list of rationals, `0` for the empty list (the spec's
`max_{j∈sel}` over an empty selection contributes nothing). -/
def maxQ : List ℚ → ℚ
  | [] => 0
  | c :: cs => cs.foldl max c

/-- Written from the spec sentence, NOT from the source: the claimed
per-round score
`λ·cos(q,eᵢ) − (1−λ)·max_{j∈sel} cos(eᵢ,eⱼ) + (1/2)^lang_count + (3/4)^path_count`
with `cos(a,b) = dot(a,b) / (dot(a,a)·dot(b,b))`. -/
def specScoreWritten (q : List ℚ) (embs : List (List ℚ))
    (langs paths : List String) (lam : ℚ) (idxs : List ℕ)
    (lc pc : String → ℕ) (i : ℕ) : ℚ :=
  let emb := embs.getD i []
  lam * (dot q emb / (dot q q * dot emb emb))
    - (1 - lam) * maxQ (idxs.map (fun j =>
        dot emb (embs.getD j []) /
          (dot emb emb * dot (embs.getD j []) (embs.getD j []))))
    + (1 / 2 : ℚ) ^ lc (langs.getD i "")
    + (3 / 4 : ℚ) ^ pc (paths.getD i "")

/-- Written from the spec sentence as amended: identical to
`specScoreWritten` except that the novelty penalty is
`max(0, max_{j∈sel} cos(eᵢ,eⱼ))` — the source clamps the selected-neighbour
similarity at zero. -/
def specScoreAmended (q : List ℚ) (embs : List (List ℚ))
    (langs paths : List String) (lam : ℚ) (idxs : List ℕ)
    (lc pc : String → ℕ) (i : ℕ) : ℚ :=
  let emb := embs.getD i []
  lam * (dot q emb / (dot q q * dot emb emb))
    - (1 - lam) * max 0 (maxQ (idxs.map (fun j =>
        dot emb (embs.getD j []) /
          (dot emb emb * dot (embs.getD j []) (embs.getD j [])))))
    + (1 / 2 : ℚ) ^ lc (langs.getD i "")
    + (3 / 4 : ℚ) ^ pc (paths.getD i "")

/-- Written from the spec sentence, NOT from the source: the greedy
selection that the claim describes — each round picks the not-yet-selected
index maximising `specScoreWritten`, ties broken by first occurrence. -/
def specSelectWritten (q : List ℚ) (embs : List (List ℚ))
    (langs paths : List String) (lam : ℚ) :
    ℕ → List ℕ → (String → ℕ) → (String → ℕ) → List ℕ
  | 0, idxs, _, _ => idxs
  | fuel + 1, idxs, lc, pc =>
      match bestCandidate embs.length
          (specScoreWritten q embs langs paths lam idxs lc pc) idxs with
      | none => idxs
      | some i =>
          specSelectWritten q embs langs paths lam fuel (idxs ++ [i])
            (bump lc (langs.getD i ""))
            (bump pc (paths.getD i ""))

/-- Written from the spec sentence, NOT from the source: the deduplication
procedure the claim describes, driven by `specScoreWritten`. -/
def specDedupWritten (q : List ℚ) (embs : List (List ℚ))
    (langs paths : List String) (lam : ℚ) (k : ℕ) : List ℕ :=
  if embs.length < k then List.range embs.length
  else
    specSelectWritten q embs langs paths lam k [] (fun _ => 0) (fun _ => 0)

/-- Counterexample to C5: query `[1,0]`, candidates `[1,0]`, `[-1,0]`,
`[0,1]` (one language, three paths), `λ = 1/2`, `k = 2`. In the second round
the source computes a novelty penalty of `max(0, cos) = 0` for candidate `1`
(its neighbour cosine is `-1`) and selects index `2`, while the score written
in the claim ranks candidates `1` and `2` equally (both `3/2`) and therefore
selects index `1` by first occurrence. -/
theorem c5_counterexample :
    deduplicate_with_mmr [1, 0] [[1, 0], [-1, 0], [0, 1]] ["l", "l", "l"]
      ["a", "b", "c"] (1 / 2) 2 = [0, 2]
    ∧ specDedupWritten [1, 0] [[1, 0], [-1, 0], [0, 1]] ["l", "l", "l"]
      ["a", "b", "c"] (1 / 2) 2 = [0, 1]
    ∧ bestCandidate 3 (equationScore [1, 0] [[1, 0], [-1, 0], [0, 1]]
        ["l", "l", "l"] ["a", "b", "c"] (1 / 2) [0]
        (bump (fun _ => 0) "l") (bump (fun _ => 0) "a")) [0] = some 2
    ∧ bestCandidate 3 (specScoreWritten [1, 0] [[1, 0], [-1, 0], [0, 1]]
        ["l", "l", "l"] ["a", "b", "c"] (1 / 2) [0]
        (bump (fun _ => 0) "l") (bump (fun _ => 0) "a")) [0] = some 1
    ∧ ([0, 2] : List ℕ) ≠ [0, 1] := by
  refine ⟨by decide, by decide, by decide, by decide, by decide⟩

/-- Folding `if c > acc then c else acc` is folding `max`. -/
theorem foldl_if_gt_eq_foldl_max (l : List ℚ) :
    ∀ a : ℚ, l.foldl (fun acc c => if c > acc then c else acc) a = l.foldl max a := by
  induction l with
  | nil => intro a; rfl
  | cons c cs ih =>
      intro a
      simp only [List.foldl_cons, ih]
      congr 1
      by_cases h : c > a
      · rw [if_pos h, max_eq_right h.le]
      · rw [if_neg h, max_eq_left (not_lt.1 h)]

/-- Pulling the seed out of a `max` fold. -/
theorem foldl_max_init (l : List ℚ) :
    ∀ a b : ℚ, l.foldl max (max a b) = max a (l.foldl max b) := by
  induction l with
  | nil => intro a b; rfl
  | cons c cs ih =>
      intro a b
      simp only [List.foldl_cons]
      rw [max_assoc, ih]

/-- A `max` fold seeded with `0` is the clamped list maximum. -/
theorem foldl_max_zero (l : List ℚ) : l.foldl max 0 = max 0 (maxQ l) := by
  cases l with
  | nil => simp [maxQ]
  | cons c cs =>
      simp only [List.foldl_cons, maxQ]
      rw [show max (0 : ℚ) c = max 0 c from rfl, foldl_max_init]

/-- The running-maximum fold of the source's selection loop computes the
clamped maximum of the mapped values. -/
theorem foldl_second_part (f : ℕ → ℚ) (idxs : List ℕ) :
    idxs.foldl (fun acc j => if f j > acc then f j else acc) 0
      = max 0 (maxQ (idxs.map f)) := by
  have h1 : ∀ (l : List ℕ) (a : ℚ),
      l.foldl (fun acc j => if f j > acc then f j else acc) a
        = (l.map f).foldl (fun acc c => if c > acc then c else acc) a := by
    intro l
    induction l with
    | nil => intro a; rfl
    | cons c cs ih => intro a; simp only [List.foldl_cons, List.map_cons, ih]
  rw [h1, foldl_if_gt_eq_foldl_max, foldl_max_zero]

/-- The per-candidate score computed by the source equals the amended
spec score (novelty penalty clamped at zero). -/
theorem equationScore_eq_specScoreAmended (q : List ℚ) (embs : List (List ℚ))
    (langs paths : List String) (lam : ℚ) (idxs : List ℕ)
    (lc pc : String → ℕ) (i : ℕ) :
    equationScore q embs langs paths lam idxs lc pc i
      = specScoreAmended q embs langs paths lam idxs lc pc i := by
  simp only [equationScore, specScoreAmended, cosine_similarity, norm]
  rw [foldl_second_part (fun j =>
    dot (embs.getD i []) (embs.getD j []) /
      (dot (embs.getD i []) (embs.getD i []) * dot (embs.getD j []) (embs.getD j []))) idxs]

/-- C5 (amended): at every selection round the source selects the
not-yet-selected index maximising the amended score
`λ·cos(q,eᵢ) − (1−λ)·max(0, max_{j∈sel} cos(eᵢ,eⱼ)) + (1/2)^lang + (3/4)^path`,
ties broken by first occurrence; the source's per-candidate score equals that
amended score. -/
theorem c5_mmr_round_selects_first_max_amended (q : List ℚ)
    (embs : List (List ℚ)) (langs paths : List String) (lam : ℚ)
    (idxs : List ℕ) (lc pc : String → ℕ)
    (h : ∃ i, i < embs.length ∧ i ∉ idxs) :
    (∀ i, equationScore q embs langs paths lam idxs lc pc i
        = specScoreAmended q embs langs paths lam idxs lc pc i)
    ∧ ∃ i, bestCandidate embs.length
          (equationScore q embs langs paths lam idxs lc pc) idxs = some i
        ∧ i < embs.length ∧ i ∉ idxs
        ∧ (∀ j, j < embs.length → j ∉ idxs →
            specScoreAmended q embs langs paths lam idxs lc pc j
              ≤ specScoreAmended q embs langs paths lam idxs lc pc i)
        ∧ (∀ j, j < i → j ∉ idxs →
            specScoreAmended q embs langs paths lam idxs lc pc j
              < specScoreAmended q embs langs paths lam idxs lc pc i)
        ∧ ∀ fuel, mmrSelect q embs langs paths lam (fuel + 1) idxs lc pc
            = mmrSelect q embs langs paths lam fuel (idxs ++ [i])
                (bump lc (langs.getD i "")) (bump pc (paths.getD i "")) := by
  have heq := equationScore_eq_specScoreAmended q embs langs paths lam idxs lc pc
  refine ⟨heq, ?_⟩
  obtain ⟨i, hbc, hin, him, hweak, hstrict⟩ := bestCandidate_some embs.length
    (equationScore q embs langs paths lam idxs lc pc) idxs h
  refine ⟨i, hbc, hin, him, ?_, ?_, ?_⟩
  · intro j hj hjm
    rw [← heq j, ← heq i]
    exact hweak j hj hjm
  · intro j hj hjm
    rw [← heq j, ← heq i]
    exact hstrict j hj hjm
  · intro fuel
    simp [mmrSelect, hbc]

/-- Witness for the amended C5 at the counterexample input, second round. -/
theorem c5_witness :
    ∃ i, bestCandidate 3 (equationScore [1, 0] [[1, 0], [-1, 0], [0, 1]]
        ["l", "l", "l"] ["a", "b", "c"] (1 / 2) [0]
        (bump (fun _ => 0) "l") (bump (fun _ => 0) "a")) [0] = some i
      ∧ i < 3 ∧ i ∉ ([0] : List ℕ)
      ∧ (∀ j, j < 3 → j ∉ ([0] : List ℕ) →
          specScoreAmended [1, 0] [[1, 0], [-1, 0], [0, 1]] ["l", "l", "l"]
            ["a", "b", "c"] (1 / 2) [0] (bump (fun _ => 0) "l")
            (bump (fun _ => 0) "a") j
            ≤ specScoreAmended [1, 0] [[1, 0], [-1, 0], [0, 1]] ["l", "l", "l"]
            ["a", "b", "c"] (1 / 2) [0] (bump (fun _ => 0) "l")
            (bump (fun _ => 0) "a") i)
      ∧ (∀ j, j < i → j ∉ ([0] : List ℕ) →
          specScoreAmended [1, 0] [[1, 0], [-1, 0], [0, 1]] ["l", "l", "l"]
            ["a", "b", "c"] (1 / 2) [0] (bump (fun _ => 0) "l")
            (bump (fun _ => 0) "a") j
            < specScoreAmended [1, 0] [[1, 0], [-1, 0], [0, 1]] ["l", "l", "l"]
            ["a", "b", "c"] (1 / 2) [0] (bump (fun _ => 0) "l")
            (bump (fun _ => 0) "a") i)
      ∧ ∀ fuel, mmrSelect [1, 0] [[1, 0], [-1, 0], [0, 1]] ["l", "l", "l"]
            ["a", "b", "c"] (1 / 2) (fuel + 1) [0] (bump (fun _ => 0) "l")
            (bump (fun _ => 0) "a")
          = mmrSelect [1, 0] [[1, 0], [-1, 0], [0, 1]] ["l", "l", "l"]
            ["a", "b", "c"] (1 / 2) fuel ([0] ++ [i])
            (bump (bump (fun _ => 0) "l") (["l", "l", "l"].getD i ""))
            (bump (bump (fun _ => 0) "a") (["a", "b", "c"].getD i "")) :=
  (c5_mmr_round_selects_first_max_amended [1, 0] [[1, 0], [-1, 0], [0, 1]]
    ["l", "l", "l"] ["a", "b", "c"] (1 / 2) [0]
    (bump (fun _ => 0) "l") (bump (fun _ => 0) "a") (by decide)).2

/-! ### Properties of the overlap filter -/

/-- Two snippets overlap: same path and intersecting inclusive line ranges
(spec section 3). -/
def overlaps (a b : Payload) : Prop :=
  a.relative_path = b.relative_path
    ∧ a.start_line ≤ b.end_line ∧ b.start_line ≤ a.end_line

/-- Separation order left behind by the dedupe sweep: the path does not
decrease, and on a shared path the earlier range ends strictly before the
later one starts. -/
def sepR (a b : Payload) : Prop :=
  (a.relative_path.data < b.relative_path.data ∨ a.relative_path = b.relative_path)
    ∧ (a.relative_path = b.relative_path → a.end_line < b.start_line)

/-- Separated snippets do not overlap. -/
theorem sepR_not_overlaps {a b : Payload} (h : sepR a b) : ¬ overlaps a b := by
  rintro ⟨hpath, _, hba⟩
  exact absurd (lt_of_lt_of_le (h.2 hpath) hba) (lt_irrefl _)

/-- Overlap is symmetric, so pairwise non-overlap survives re-sorting. -/
theorem not_overlaps_symm : Symmetric (fun a b : Payload => ¬ overlaps a b) := by
  intro a b hab hba
  exact hab ⟨hba.1.symm, hba.2.2, hba.2.1⟩

/-- `sepR` is transitive through a middle snippet with a well-formed range. -/
theorem sepR_trans {a b c : Payload} (hb : b.start_line ≤ b.end_line)
    (h1 : sepR a b) (h2 : sepR b c) : sepR a c := by
  obtain ⟨h1p, h1r⟩ := h1
  obtain ⟨h2p, h2r⟩ := h2
  constructor
  · rcases h1p with h1p | h1p
    · rcases h2p with h2p | h2p
      · exact Or.inl (h1p.trans h2p)
      · exact Or.inl (h2p ▸ h1p)
    · rcases h2p with h2p | h2p
      · exact Or.inl (h1p ▸ h2p)
      · exact Or.inr (h1p.trans h2p)
  · intro hac
    rcases h1p with h1p | h1p
    · rcases h2p with h2p | h2p
      · exact absurd (hac ▸ (h1p.trans h2p)) (lt_irrefl _)
      · exact absurd (hac ▸ (h2p ▸ h1p)) (lt_irrefl _)
    · rcases h2p with h2p | h2p
      · exact absurd (hac ▸ (h1p ▸ h2p)) (lt_irrefl _)
      · exact lt_of_lt_of_le (h1r h1p) (le_trans hb (le_of_lt (h2r h2p)))

/-- The structural form of the dedupe fold: compare each snippet against the
last kept one (`prev`), dropping it when it starts inside `prev`'s range on
the same path. -/
def sweep (prev : Payload) : List Payload → List Payload
  | [] => []
  | s :: rest =>
      if prev.relative_path = s.relative_path ∧ s.start_line ≤ prev.end_line
      then sweep prev rest
      else s :: sweep s rest

/-- The fold of `filter_overlapping_snippets` with a nonempty accumulator is
the accumulator followed by the sweep from its last element. -/
theorem foldl_dedupeStep_eq_sweep :
    ∀ (l acc : List Payload) (prev : Payload), acc.getLast? = some prev →
      l.foldl dedupeStep acc = acc ++ sweep prev l := by
  intro l
  induction l with
  | nil => intro acc prev _; simp [sweep]
  | cons s rest ih =>
      intro acc prev hlast
      by_cases hc : prev.relative_path = s.relative_path ∧ s.start_line ≤ prev.end_line
      · have hstep : dedupeStep acc s = acc := by
          simp [dedupeStep, hlast, hc]
        rw [List.foldl_cons, hstep, ih acc prev hlast]
        simp [sweep, hc]
      · have hstep : dedupeStep acc s = acc ++ [s] := by
          simp [dedupeStep, hlast, hc]
        rw [List.foldl_cons, hstep, ih (acc ++ [s]) s (by simp)]
        simp [sweep, hc]

/-- The dedupe fold from the empty accumulator keeps the head and sweeps. -/
theorem foldl_dedupeStep_nil :
    ∀ l : List Payload,
      l.foldl dedupeStep [] = match l with
        | [] => []
        | s :: rest => s :: sweep s rest := by
  intro l
  cases l with
  | nil => rfl
  | cons s rest =>
      have hstep : dedupeStep [] s = [s] := by simp [dedupeStep]
      rw [List.foldl_cons, hstep,
        foldl_dedupeStep_eq_sweep rest [s] s (by simp)]
      simp

/-- Everything the sweep keeps came from its input. -/
theorem sweep_subset :
    ∀ (l : List Payload) (prev x : Payload), x ∈ sweep prev l → x ∈ l := by
  intro l
  induction l with
  | nil => intro prev x h; simp [sweep] at h
  | cons s rest ih =>
      intro prev x h
      by_cases hc : prev.relative_path = s.relative_path ∧ s.start_line ≤ prev.end_line
      · simp only [sweep, if_pos hc] at h
        exact List.mem_cons_of_mem _ (ih prev x h)
      · simp only [sweep, if_neg hc] at h
        rcases List.mem_cons.1 h with rfl | h2
        · exact List.mem_cons_self _ _
        · exact List.mem_cons_of_mem _ (ih s x h2)

/-- On a sorted tail with well-formed ranges, the sweep keeps only snippets
separated from the previous kept one, and the kept list is pairwise
separated. -/
theorem sweep_invariant :
    ∀ (l : List Payload) (prev : Payload),
      (∀ x ∈ l, x.start_line ≤ x.end_line) →
      List.Pairwise pathStartLe (prev :: l) →
      (∀ x ∈ sweep prev l, sepR prev x)
      ∧ List.Pairwise sepR (sweep prev l) := by
  intro l
  induction l with
  | nil => intro prev _ _; exact ⟨by simp [sweep], by simp [sweep]⟩
  | cons s rest ih =>
      intro prev hse hsort
      have hps : pathStartLe prev s := (List.pairwise_cons.1 hsort).1 s (List.mem_cons_self _ _)
      have hprest : ∀ x ∈ rest, pathStartLe prev x := fun x hx =>
        (List.pairwise_cons.1 hsort).1 x (List.mem_cons_of_mem _ hx)
      have hsrest : List.Pairwise pathStartLe (s :: rest) := (List.pairwise_cons.1 hsort).2
      by_cases hc : prev.relative_path = s.relative_path ∧ s.start_line ≤ prev.end_line
      · have hsort2 : List.Pairwise pathStartLe (prev :: rest) :=
          List.pairwise_cons.2 ⟨hprest, (List.pairwise_cons.1 hsrest).2⟩
        obtain ⟨h1, h2⟩ := ih prev (fun x hx => hse x (List.mem_cons_of_mem _ hx)) hsort2
        rw [show sweep prev (s :: rest) = sweep prev rest from by simp [sweep, hc]]
        exact ⟨h1, h2⟩
      · obtain ⟨h1, h2⟩ := ih s (fun x hx => hse x (List.mem_cons_of_mem _ hx)) hsrest
        have hpsep : sepR prev s := by
          refine ⟨?_, ?_⟩
          · rcases hps with hps | ⟨hpe, _⟩
            · exact Or.inl hps
            · exact Or.inr hpe
          · intro hpe
            rcases not_and_or.1 hc with hc2 | hc2
            · exact absurd hpe hc2
            · exact not_le.1 hc2
        rw [show sweep prev (s :: rest) = s :: sweep s rest from by simp [sweep, hc]]
        have hs_se : s.start_line ≤ s.end_line := hse s (List.mem_cons_self _ _)
        refine ⟨?_, List.pairwise_cons.2 ⟨h1, h2⟩⟩
        intro x hx
        rcases List.mem_cons.1 hx with rfl | hx2
        · exact hpsep
        · exact sepR_trans hs_se hpsep (h1 x hx2)

/-- C4: on any input whose snippets satisfy `start_line ≤ end_line`, no two
snippets kept by `filter_overlapping_snippets` share a path with
intersecting line ranges. -/
theorem c4_filter_overlapping_no_overlap (snippets : List Payload)
    (h : ∀ s ∈ snippets, s.start_line ≤ s.end_line) :
    List.Pairwise (fun a b => ¬ overlaps a b)
      (filter_overlapping_snippets snippets) := by
  unfold filter_overlapping_snippets
  set sorted := List.insertionSort pathStartLe snippets with hsorted_def
  have hsorted : List.Pairwise pathStartLe sorted :=
    List.sorted_insertionSort pathStartLe snippets
  have hmem : ∀ x ∈ sorted, x ∈ snippets := fun x hx =>
    (List.perm_insertionSort pathStartLe snippets).mem_iff.1 hx
  have hdeduped : List.Pairwise sepR (sorted.foldl dedupeStep []) := by
    rw [foldl_dedupeStep_nil]
    cases hs : sorted with
    | nil => simp
    | cons s rest =>
        have hse : ∀ x ∈ rest, x.start_line ≤ x.end_line := fun x hx =>
          h x (hmem x (hs ▸ List.mem_cons_of_mem _ hx))
        obtain ⟨h1, h2⟩ := sweep_invariant rest s hse (hs ▸ hsorted)
        exact List.pairwise_cons.2 ⟨h1, h2⟩
  have hnool : List.Pairwise (fun a b => ¬ overlaps a b) (sorted.foldl dedupeStep []) :=
    hdeduped.imp (fun hab => sepR_not_overlaps hab)
  exact ((List.perm_insertionSort scoreGe (sorted.foldl dedupeStep [])).pairwise_iff
    (fun hab => not_overlaps_symm hab)).2 hnool

/-- Witness for C4 on the spec's three-snippet scenario. -/
theorem c4_witness :
    (∀ s ∈ ([⟨"A", "", 10, 20, 9 / 10, "", none⟩,
        ⟨"A", "", 15, 25, 8 / 10, "", none⟩,
        ⟨"B", "", 1, 5, 7 / 10, "", none⟩] : List Payload),
      s.start_line ≤ s.end_line)
    ∧ List.Pairwise (fun a b => ¬ overlaps a b)
        (filter_overlapping_snippets
          [⟨"A", "", 10, 20, 9 / 10, "", none⟩,
           ⟨"A", "", 15, 25, 8 / 10, "", none⟩,
           ⟨"B", "", 1, 5, 7 / 10, "", none⟩]) :=
  ⟨by decide, c4_filter_overlapping_no_overlap _ (by decide)⟩

/-- C8: on the three-snippet input `A:(10-20, 0.9)`, `A:(15-25, 0.8)`,
`B:(1-5, 0.7)` the filter keeps exactly `A:(10-20)` and `B:(1-5)`, sorted by
descending score. -/
theorem c8_filter_overlapping_concrete :
    filter_overlapping_snippets
      [⟨"A", "", 10, 20, 9 / 10, "", none⟩,
       ⟨"A", "", 15, 25, 8 / 10, "", none⟩,
       ⟨"B", "", 1, 5, 7 / 10, "", none⟩]
    = [⟨"A", "", 10, 20, 9 / 10, "", none⟩,
       ⟨"B", "", 1, 5, 7 / 10, "", none⟩] := by decide

/-- Everything kept by `filter_overlapping_snippets` came from its input. -/
theorem mem_filter_overlapping {x : Payload} {l : List Payload}
    (hx : x ∈ filter_overlapping_snippets l) : x ∈ l := by
  unfold filter_overlapping_snippets at hx
  have h1 : x ∈ (List.insertionSort pathStartLe l).foldl dedupeStep [] :=
    (List.perm_insertionSort scoreGe _).mem_iff.1 hx
  rw [foldl_dedupeStep_nil] at h1
  have h2 : x ∈ List.insertionSort pathStartLe l := by
    revert h1
    cases List.insertionSort pathStartLe l with
    | nil => intro h1; simp at h1
    | cons s rest =>
        intro h1
        rcases List.mem_cons.1 h1 with rfl | h3
        · exact List.mem_cons_self _ _
        · exact List.mem_cons_of_mem _ (sweep_subset rest s x h3)
  exact (List.perm_insertionSort pathStartLe l).mem_iff.1 h2

/-- Collecting the embeddings succeeds when each one is present. -/
theorem collectEmbeddings_isSome :
    ∀ l : List Payload, (∀ s ∈ l, s.embedding.isSome) →
      (collectEmbeddings l).isSome := by
  intro l
  induction l with
  | nil => intro _; simp [collectEmbeddings]
  | cons s rest ih =>
      intro h
      obtain ⟨e, he⟩ := Option.isSome_iff_exists.1 (h s (List.mem_cons_self _ _))
      obtain ⟨es, hes⟩ := Option.isSome_iff_exists.1
        (ih (fun x hx => h x (List.mem_cons_of_mem _ hx)))
      simp [collectEmbeddings, he, hes]

/-- C9: when every input payload carries an embedding (and, with scores
modelled as rationals, every score comparison is total), `deduplicate_snippets`
completes without the modelled panics: the embedding `unwrap` and the score
`partial_cmp` `unwrap` are unreachable. -/
theorem c9_deduplicate_snippets_no_panic (all_snippets : List Payload)
    (query_embedding : List ℚ) (output_count : ℕ)
    (h : ∀ s ∈ all_snippets, s.embedding.isSome) :
    (deduplicate_snippets all_snippets query_embedding output_count).isSome := by
  unfold deduplicate_snippets
  obtain ⟨es, hes⟩ := Option.isSome_iff_exists.1
    (collectEmbeddings_isSome (filter_overlapping_snippets all_snippets)
      (fun s hs => h s (mem_filter_overlapping hs)))
  simp [hes]

/-- Witness for C9 on a concrete two-snippet input with embeddings. -/
theorem c9_witness :
    (∀ s ∈ ([⟨"A", "rs", 10, 20, 9 / 10, "", some [1, 0]⟩,
        ⟨"B", "py", 1, 5, 7 / 10, "", some [0, 1]⟩] : List Payload),
      s.embedding.isSome)
    ∧ (deduplicate_snippets
        [⟨"A", "rs", 10, 20, 9 / 10, "", some [1, 0]⟩,
         ⟨"B", "py", 1, 5, 7 / 10, "", some [0, 1]⟩] [1, 0] 1).isSome :=
  ⟨by decide, c9_deduplicate_snippets_no_panic _ [1, 0] 1 (by decide)⟩

/-! ### Properties of the HyDE fenced-block parser -/

/-- A triple-backtick fence. -/
def tickFence : List Char := [tick, tick, tick]

/-- A document built from a preamble and a list of fenced segments: each
segment contributes an opening fence, its block content, a closing fence and
the text following it. -/
def assemble : List Char → List (List Char × List Char) → List Char
  | pre, [] => pre
  | pre, (b, after) :: rest =>
      pre ++ (tickFence ++ (b ++ (tickFence ++ assemble after rest)))

/-- A backtick-free text holds no fence to find. -/
theorem dropThroughTicks_of_no_tick :
    ∀ l : List Char, tick ∉ l → dropThroughTicks l = none := by
  intro l
  induction l with
  | nil => intro _; rfl
  | cons c rest ih =>
      intro h
      have hc : c ≠ tick := fun hc => h (hc ▸ List.mem_cons_self _ _)
      rw [show dropThroughTicks (c :: rest)
          = if c = tick ∧ rest.take 2 = [tick, tick] then some (rest.drop 2)
            else dropThroughTicks rest from rfl,
        if_neg (fun hand => hc hand.1)]
      exact ih (fun hm => h (List.mem_cons_of_mem _ hm))

/-- Scanning a backtick-free preamble followed by a fence lands right after
the fence. -/
theorem dropThroughTicks_clean :
    ∀ (xs r : List Char), tick ∉ xs →
      dropThroughTicks (xs ++ (tickFence ++ r)) = some r := by
  intro xs
  induction xs with
  | nil =>
      intro r _
      show dropThroughTicks (tick :: tick :: tick :: r) = some r
      rw [show dropThroughTicks (tick :: tick :: tick :: r)
          = if tick = tick ∧ (tick :: tick :: r).take 2 = [tick, tick]
            then some ((tick :: tick :: r).drop 2)
            else dropThroughTicks (tick :: tick :: r) from rfl,
        if_pos ⟨rfl, rfl⟩]
      rfl
  | cons x xs ih =>
      intro r h
      have hx : x ≠ tick := fun hc => h (hc ▸ List.mem_cons_self _ _)
      rw [List.cons_append,
        show dropThroughTicks (x :: (xs ++ (tickFence ++ r)))
          = if x = tick ∧ (xs ++ (tickFence ++ r)).take 2 = [tick, tick]
            then some ((xs ++ (tickFence ++ r)).drop 2)
            else dropThroughTicks (xs ++ (tickFence ++ r)) from rfl,
        if_neg (fun hand => hx hand.1)]
      exact ih r (fun hm => h (List.mem_cons_of_mem _ hm))

/-- After an opening fence, the non-greedy capture takes the backtick-free
content up to the next fence. -/
theorem takeUntilTicks_clean :
    ∀ (b r : List Char), tick ∉ b →
      takeUntilTicks (b ++ (tickFence ++ r)) = some (b, r) := by
  intro b
  induction b with
  | nil =>
      intro r _
      show takeUntilTicks (tick :: tick :: tick :: r) = some ([], r)
      rw [show takeUntilTicks (tick :: tick :: tick :: r)
          = if tick = tick ∧ (tick :: tick :: r).take 2 = [tick, tick]
            then some ([], (tick :: tick :: r).drop 2)
            else match takeUntilTicks (tick :: tick :: r) with
              | some (content, after) => some (tick :: content, after)
              | none => none from rfl,
        if_pos ⟨rfl, rfl⟩]
      rfl
  | cons x xs ih =>
      intro r h
      have hx : x ≠ tick := fun hc => h (hc ▸ List.mem_cons_self _ _)
      rw [List.cons_append,
        show takeUntilTicks (x :: (xs ++ (tickFence ++ r)))
          = if x = tick ∧ (xs ++ (tickFence ++ r)).take 2 = [tick, tick]
            then some ([], (xs ++ (tickFence ++ r)).drop 2)
            else match takeUntilTicks (xs ++ (tickFence ++ r)) with
              | some (content, after) => some (x :: content, after)
              | none => none from rfl,
        if_neg (fun hand => hx hand.1), ih r (fun hm => h (List.mem_cons_of_mem _ hm))]

/-- A document holds at least as many characters as fenced segments. -/
theorem length_assemble :
    ∀ (segs : List (List Char × List Char)) (pre : List Char),
      segs.length ≤ (assemble pre segs).length := by
  intro segs
  induction segs with
  | nil => intro pre; simp [assemble]
  | cons p rest ih =>
      intro pre
      obtain ⟨b, after⟩ := p
      have := ih after
      simp only [assemble, List.length_append, List.length_cons, tickFence]
      simp only [List.length_cons, List.length_nil]
      omega

/-- With enough fuel, extraction returns exactly the fenced blocks of an
assembled document, in order. -/
theorem extractBlocks_assemble :
    ∀ (segs : List (List Char × List Char)) (pre : List Char) (fuel : ℕ),
      tick ∉ pre → (∀ p ∈ segs, tick ∉ p.1 ∧ tick ∉ p.2) →
      segs.length ≤ fuel →
      extractBlocks fuel (assemble pre segs) = segs.map Prod.fst := by
  intro segs
  induction segs with
  | nil =>
      intro pre fuel hpre _ _
      cases fuel with
      | zero => rfl
      | succ f =>
          show extractBlocks (f + 1) pre = []
          rw [show extractBlocks (f + 1) pre
              = (match dropThroughTicks pre with
                | none => []
                | some afterOpen =>
                    match takeUntilTicks afterOpen with
                    | none => []
                    | some (content, rest) => content :: extractBlocks f rest) from rfl,
            dropThroughTicks_of_no_tick pre hpre]
  | cons p rest ih =>
      intro pre fuel hpre hsegs hlen
      obtain ⟨b, after⟩ := p
      cases fuel with
      | zero => exact absurd hlen (by simp)
      | succ f =>
          have hb : tick ∉ b := (hsegs (b, after) (List.mem_cons_self _ _)).1
          have hafter : tick ∉ after := (hsegs (b, after) (List.mem_cons_self _ _)).2
          show extractBlocks (f + 1) (assemble pre ((b, after) :: rest))
            = b :: rest.map Prod.fst
          rw [show extractBlocks (f + 1) (assemble pre ((b, after) :: rest))
              = (match dropThroughTicks (assemble pre ((b, after) :: rest)) with
                | none => []
                | some afterOpen =>
                    match takeUntilTicks afterOpen with
                    | none => []
                    | some (content, rest2) => content :: extractBlocks f rest2) from rfl,
            show assemble pre ((b, after) :: rest)
              = pre ++ (tickFence ++ (b ++ (tickFence ++ assemble after rest))) from rfl,
            dropThroughTicks_clean pre _ hpre]
          have h1 : (match (some (b ++ (tickFence ++ assemble after rest)) : Option (List Char)) with
                | none => ([] : List (List Char))
                | some afterOpen =>
                    match takeUntilTicks afterOpen with
                    | none => []
                    | some (content, rest2) => content :: extractBlocks f rest2)
              = match takeUntilTicks (b ++ (tickFence ++ assemble after rest)) with
                | none => []
                | some (content, rest2) => content :: extractBlocks f rest2 := rfl
          rw [h1, takeUntilTicks_clean b _ hb]
          show b :: extractBlocks f (assemble after rest) = b :: rest.map Prod.fst
          rw [ih after f hafter
            (fun q hq => hsegs q (List.mem_cons_of_mem _ hq))
            (Nat.le_of_succ_le_succ hlen)]

/-- C6: `try_parse_hypothetical_documents` returns, in order, the trimmed
content of every triple-backtick fenced block of its input (documents whose
preamble, block contents and inter-block text are backtick-free). -/
theorem c6_try_parse_hypothetical_documents (pre : List Char)
    (segs : List (List Char × List Char))
    (hpre : tick ∉ pre) (hsegs : ∀ p ∈ segs, tick ∉ p.1 ∧ tick ∉ p.2) :
    try_parse_hypothetical_documents (String.mk (assemble pre segs))
      = segs.map (fun p => String.mk (trim p.1)) := by
  unfold try_parse_hypothetical_documents
  have hlist : (String.mk (assemble pre segs)).toList = assemble pre segs := rfl
  have hlen2 : (String.mk (assemble pre segs)).length = (assemble pre segs).length := rfl
  rw [hlist, hlen2,
    extractBlocks_assemble segs pre _ hpre hsegs (length_assemble segs pre),
    List.map_map]
  rfl

/-- Witness for C6 on the spec scenario: two fenced blocks, the first opened
with a `rust` language tag, the second unlabeled; the tag survives as the
first line of block one and both contents come back trimmed, in order. -/
theorem c6_witness :
    tick ∉ "Pointless text\n".toList
    ∧ (∀ p ∈ ([("rust\nlet x = 1;\n".toList, "\nMore text\n".toList),
        ("\nlet y = 2;\n".toList, "\ntrailing".toList)] : List (List Char × List Char)),
        tick ∉ p.1 ∧ tick ∉ p.2)
    ∧ try_parse_hypothetical_documents
        (String.mk (assemble "Pointless text\n".toList
          [("rust\nlet x = 1;\n".toList, "\nMore text\n".toList),
           ("\nlet y = 2;\n".toList, "\ntrailing".toList)]))
      = [("rust\nlet x = 1;\n".toList, "\nMore text\n".toList),
         ("\nlet y = 2;\n".toList, "\ntrailing".toList)].map
          (fun p => String.mk (trim p.1))
    ∧ ([("rust\nlet x = 1;\n".toList, "\nMore text\n".toList),
        ("\nlet y = 2;\n".toList, "\ntrailing".toList)] : List (List Char × List Char)).map
          (fun p => String.mk (trim p.1))
      = ["rust\nlet x = 1;", "let y = 2;"] :=
  ⟨by decide, by decide,
    c6_try_parse_hypothetical_documents "Pointless text\n".toList
      [("rust\nlet x = 1;\n".toList, "\nMore text\n".toList),
       ("\nlet y = 2;\n".toList, "\ntrailing".toList)] (by decide) (by decide),
    by decide⟩

/-- C7: the tool schema lists the `code`, `path` and `none` descriptions in
that order, with the `proc` description appended as the last element exactly
when `add_proc` is set. -/
theorem c7_functions_schema (add_proc : Bool) :
    toolNames (functions add_proc)
      = (if add_proc then ["code", "path", "none", "proc"]
          else ["code", "path", "none"])
    ∧ functions add_proc
      = Json.arr ([codeTool, pathTool, noneTool]
          ++ if add_proc then [procTool] else []) := by
  cases add_proc
  · exact ⟨rfl, rfl⟩
  · exact ⟨rfl, rfl⟩

/-! ### Properties of the suggest controller -/

/-- A loadable tracker whose derived stage is `AllQuestionsAnswered`: one
conversation with a single question, already answered. -/
def answeredTracker : TrackProcessV1 :=
  ⟨"repo", true,
    [⟨Message.user "q", ⟨"system", "s"⟩, ⟨"assistant", "a"⟩, none,
      some [⟨"t", [⟨"st", ["q1"]⟩]⟩]⟩],
    [⟨0, "q1", ⟨"ans", []⟩⟩]⟩

/-- C1 (refuting the termination guarantee): in the `AllQuestionsAnswered`
and `QuestionsPartiallyAnswered` arms the stage loop neither transitions to
another stage nor returns, so on a loadable graph whose derived stage is
`AllQuestionsAnswered` the loop of `handle_suggest_core` never returns, for
any number of iterations. -/
theorem c1_suggest_loop_diverges :
    ∀ (genTasks : Except String TaskListResponseWithMessage)
      (answersFor : List QuestionWithId → List (Except String QuestionWithAnswer))
      (request : SuggestRequest) (tracker : TrackProcessV1) (fuel : ℕ),
      suggestStep request genTasks answersFor .AllQuestionsAnswered tracker
        = .next .AllQuestionsAnswered tracker
      ∧ suggestStep request genTasks answersFor .QuestionsPartiallyAnswered tracker
        = .next .QuestionsPartiallyAnswered tracker
      ∧ answeredTracker.last_conversation_processing_stage.1
        = .AllQuestionsAnswered
      ∧ handle_suggest_core ⟨some "convo", "query", "repo"⟩ (.ok answeredTracker)
          genTasks answersFor fuel = none := by
  intro genTasks answersFor request tracker fuel
  have hloop : ∀ f, suggestLoop ⟨some "convo", "query", "repo"⟩ genTasks answersFor f
      ConversationProcessingStage.AllQuestionsAnswered answeredTracker = none := by
    intro f
    induction f with
    | zero => rfl
    | succ g ih => exact ih
  refine ⟨rfl, rfl, by decide, ?_⟩
  have hh : handle_suggest_core ⟨some "convo", "query", "repo"⟩ (.ok answeredTracker)
      genTasks answersFor fuel
      = suggestLoop ⟨some "convo", "query", "repo"⟩ genTasks answersFor fuel
          answeredTracker.last_conversation_processing_stage.1 answeredTracker := rfl
  rw [hh, show answeredTracker.last_conversation_processing_stage.1
    = ConversationProcessingStage.AllQuestionsAnswered from by decide]
  exact hloop fuel

/-- The first element satisfying the predicate in a decomposed list. -/
theorem find?_first_of_split {α : Type} (p : α → Bool) :
    ∀ (pre : List α) (x : α) (post : List α),
      (∀ y ∈ pre, p y = false) → p x = true →
      (pre ++ x :: post).find? p = some x := by
  intro pre
  induction pre with
  | nil =>
      intro x post _ hx
      simp [List.find?_cons, hx]
  | cons y ys ih =>
      intro x post hpre hx
      have hy : p y = false := hpre y (List.mem_cons_self _ _)
      simp only [List.cons_append, List.find?_cons, hy]
      exact ih x post (fun z hz => hpre z (List.mem_cons_of_mem _ hz)) hx

/-- C2 (amended): the `TasksAndQuestionsGenerated` arm fans the
code-understanding results out over the unanswered questions, extends the
graph with every successful answer first, and then returns the first error
when one exists; when all calls succeed it returns `Ok` of the
unanswered-questions list it fanned out over (the `task_list` binding of
`suggest.rs` line 156), not the conversation's full task hierarchy. -/
theorem c2_answers_arm (request : SuggestRequest)
    (genTasks : Except String TaskListResponseWithMessage)
    (answersFor : List QuestionWithId → List (Except String QuestionWithAnswer))
    (tracker : TrackProcessV1) :
    ((tracker.extend_graph_with_answers
        (answersFor tracker.get_unanswered_questions)).answers
      = tracker.answers
        ++ (answersFor tracker.get_unanswered_questions).filterMap Except.toOption)
    ∧ (∀ pre e post,
        answersFor tracker.get_unanswered_questions = pre ++ .error e :: post →
        (∀ x ∈ pre, isErrB x = false) →
        suggestStep request genTasks answersFor .TasksAndQuestionsGenerated tracker
          = .fail e (tracker.extend_graph_with_answers
              (answersFor tracker.get_unanswered_questions)))
    ∧ ((∀ x ∈ answersFor tracker.get_unanswered_questions, isErrB x = false) →
        suggestStep request genTasks answersFor .TasksAndQuestionsGenerated tracker
          = .ok (.questions tracker.get_unanswered_questions)
              (tracker.extend_graph_with_answers
                (answersFor tracker.get_unanswered_questions))) := by
  have hstep : suggestStep request genTasks answersFor .TasksAndQuestionsGenerated tracker
      = match (answersFor tracker.get_unanswered_questions).find? isErrB with
        | some err_result =>
            .fail (errMsgOf err_result)
              (tracker.extend_graph_with_answers
                (answersFor tracker.get_unanswered_questions))
        | none =>
            .ok (.questions tracker.get_unanswered_questions)
              (tracker.extend_graph_with_answers
                (answersFor tracker.get_unanswered_questions)) := rfl
  refine ⟨rfl, ?_, ?_⟩
  · intro pre e post hsplit hpre
    rw [hstep]
    rw [show (answersFor tracker.get_unanswered_questions).find? isErrB
        = some (.error e) from hsplit ▸ find?_first_of_split isErrB pre (.error e) post hpre rfl]
    rfl
  · intro hok
    rw [hstep]
    rw [List.find?_eq_none.2 (fun x hx hpx => by rw [hok x hx] at hpx; cases hpx)]

/-- A tracker with three unanswered questions, for the C2 witness. -/
def threeQTracker : TrackProcessV1 :=
  ⟨"repo", true,
    [⟨Message.user "q", ⟨"system", "s"⟩, ⟨"assistant", "a"⟩, none,
      some [⟨"t", [⟨"st", ["q0", "q1", "q2"]⟩]⟩]⟩],
    []⟩

/-- The scripted code-understanding results for the C2 witness: question 1
fails, questions 0 and 2 succeed. -/
def scriptedAnswers : List QuestionWithId → List (Except String QuestionWithAnswer) :=
  fun _ =>
    [.ok ⟨0, "q0", ⟨"a0", []⟩⟩, .error "service failed on q1",
     .ok ⟨2, "q2", ⟨"a2", []⟩⟩]

/-- The scripted all-success code-understanding results for the C2 witness
and counterexample. -/
def allOkAnswers : List QuestionWithId → List (Except String QuestionWithAnswer) :=
  fun _ =>
    [.ok ⟨0, "q0", ⟨"a0", []⟩⟩, .ok ⟨1, "q1", ⟨"a1", []⟩⟩,
     .ok ⟨2, "q2", ⟨"a2", []⟩⟩]

/-- Counterexample to C2 as stated: on a conversation whose task hierarchy
is `t / st / [q0, q1, q2]`, with every code-understanding call succeeding,
the arm returns `Ok` of the unanswered-questions list (`task_list` from
`suggest.rs` line 156, of type `Vec<QuestionWithId>`), which is not the
conversation's full task list. -/
theorem c2_counterexample :
    suggestStep ⟨some "convo", "query", "repo"⟩ (.error "unused") allOkAnswers
        .TasksAndQuestionsGenerated threeQTracker
      = .ok (.questions [⟨0, "q0"⟩, ⟨1, "q1"⟩, ⟨2, "q2"⟩])
          (threeQTracker.extend_graph_with_answers
            (allOkAnswers threeQTracker.get_unanswered_questions))
    ∧ ¬ (SuggestReturn.questions [⟨0, "q0"⟩, ⟨1, "q1"⟩, ⟨2, "q2"⟩]
          = SuggestReturn.taskList
              ⟨none, some [⟨"t", [⟨"st", ["q0", "q1", "q2"]⟩]⟩]⟩) :=
  ⟨by decide, by decide⟩

/-- Witness for C2 (amended): with the scripted failure on question 1 the
arm returns that error and the graph holds exactly the two successful
answers; with every call succeeding it returns the unanswered-questions
list. -/
theorem c2_witness :
    suggestStep ⟨some "convo", "query", "repo"⟩ (.error "unused") scriptedAnswers
        .TasksAndQuestionsGenerated threeQTracker
      = .fail "service failed on q1"
          (threeQTracker.extend_graph_with_answers
            (scriptedAnswers threeQTracker.get_unanswered_questions))
    ∧ (threeQTracker.extend_graph_with_answers
          (scriptedAnswers threeQTracker.get_unanswered_questions)).answers
      = [⟨0, "q0", ⟨"a0", []⟩⟩, ⟨2, "q2", ⟨"a2", []⟩⟩]
    ∧ suggestStep ⟨some "convo", "query", "repo"⟩ (.error "unused") allOkAnswers
        .TasksAndQuestionsGenerated threeQTracker
      = .ok (.questions threeQTracker.get_unanswered_questions)
          (threeQTracker.extend_graph_with_answers
            (allOkAnswers threeQTracker.get_unanswered_questions)) :=
  ⟨((c2_answers_arm ⟨some "convo", "query", "repo"⟩ (.error "unused")
      scriptedAnswers threeQTracker).2.1
        [.ok ⟨0, "q0", ⟨"a0", []⟩⟩] "service failed on q1"
        [.ok ⟨2, "q2", ⟨"a2", []⟩⟩] rfl (by decide)),
   by decide,
   ((c2_answers_arm ⟨some "convo", "query", "repo"⟩ (.error "unused")
      allOkAnswers threeQTracker).2.2 (by decide))⟩

/-- C10: when the parsed LM task list carries neither tasks nor an
`ask_user` message, the `GenerateTasksAndQuestions` arm returns an error and
leaves the tracker untouched (the error is raised before the graph-extension
op runs). -/
theorem c10_empty_tasklist_errors (request : SuggestRequest)
    (answersFor : List QuestionWithId → List (Except String QuestionWithAnswer))
    (tracker : TrackProcessV1) (resp : TaskListResponseWithMessage)
    (h1 : resp.task_list.ask_user = none) (h2 : resp.task_list.tasks = none) :
    suggestStep request (.ok resp) answersFor .GenerateTasksAndQuestions tracker
      = .fail "No tasks or either ask_user is generated. The LLM is not supposed to behave this way, test the API response from the code understanding service" tracker := by
  have hstep : suggestStep request (.ok resp) answersFor .GenerateTasksAndQuestions tracker
      = if resp.task_list.ask_user = none ∧ resp.task_list.tasks = none then
          .fail "No tasks or either ask_user is generated. The LLM is not supposed to behave this way, test the API response from the code understanding service" tracker
        else
          (let chain : ConversationChain :=
            { user_message := Message.user request.user_query,
              system_message := resp.messages.getD 0 ⟨"", ""⟩,
              assistant_message := resp.messages.getD 1 ⟨"", ""⟩ }
          let tracker2 := tracker.extend_graph_with_conversation_and_tasklist
            chain resp.task_list.ask_user (some ⟨none, resp.task_list.tasks⟩)
          let state2 := tracker2.last_conversation_processing_stage.1
          if state2 = .AwaitingUserInput then .ok emptySuggestTasks tracker2
          else .next state2 tracker2) := rfl
  rw [hstep, if_pos ⟨h1, h2⟩]

/-- Witness for C10 on a concrete empty task-list response. -/
theorem c10_witness :
    (⟨⟨none, none⟩, [⟨"system", "s"⟩, ⟨"assistant", "a"⟩]⟩ :
        TaskListResponseWithMessage).task_list.ask_user = none
    ∧ (⟨⟨none, none⟩, [⟨"system", "s"⟩, ⟨"assistant", "a"⟩]⟩ :
        TaskListResponseWithMessage).task_list.tasks = none
    ∧ suggestStep ⟨none, "query", "repo"⟩
        (.ok ⟨⟨none, none⟩, [⟨"system", "s"⟩, ⟨"assistant", "a"⟩]⟩)
        scriptedAnswers .GenerateTasksAndQuestions (TrackProcessV1.new "repo")
      = .fail "No tasks or either ask_user is generated. The LLM is not supposed to behave this way, test the API response from the code understanding service"
          (TrackProcessV1.new "repo") :=
  ⟨rfl, rfl,
    c10_empty_tasklist_errors ⟨none, "query", "repo"⟩ scriptedAnswers
      (TrackProcessV1.new "repo")
      ⟨⟨none, none⟩, [⟨"system", "s"⟩, ⟨"assistant", "a"⟩]⟩ rfl rfl⟩

end Nezuko
